import Mathlib

/-!
Shallow embedding of the vault synchronization engine implemented in
`src/PythonBackend/core/sync_service.py` (class `SyncService`), together with
theorems settling the specification claims about it.

Modelling conventions:

* Python strings are modelled as `List Char` (abbreviated `Str`), so that every
  string operation used by the source (strip, lower, split, join, substring
  search, regular-expression scans) has an executable, kernel-reducible
  definition.
* Python dicts keyed by strings are association lists with insert-or-replace
  update (`dictInsert`), mirroring dict assignment semantics.
* Filesystem timestamps (`st_mtime`, `last_modified`) are modelled as `Int`.
  The source stores them as floats, but every use in the source is
  subtraction, absolute value and comparison against the constant 1, which the
  integer model preserves; rationals are avoided only because their kernel
  reduction is impractical for concrete evaluation.
* A fallible step is modelled by an `Option` input: `none` stands for an
  exception raised at that point (or a failed read), matching the source's
  try/except structure.
* SHA-256 itself is not re-implemented: content hashing enters the model as a
  function parameter (`hashF`), or as the already-computed outcome of
  `_get_file_hash`.  Likewise `yaml.safe_load` enters as a function parameter
  `yload : Str → Option Str` (`none` = the YAML parser raised).
-/

namespace SyncService

/-- Python strings, modelled as lists of characters. -/
abbrev Str := List Char

/-- The whitespace set recognised by Python `str.strip()` with no argument. -/
def pyIsSpace (c : Char) : Bool :=
  c == ' ' || c == '\t' || c == '\n' || c == '\r' || c == '\x0b' || c == '\x0c'

/-- Python `str.strip()`: drop leading and trailing whitespace. -/
def pyStrip (s : Str) : Str :=
  ((s.dropWhile pyIsSpace).reverse.dropWhile pyIsSpace).reverse

/-- Python `str.lower()` (all inputs in this development are ASCII). -/
def pyLower (s : Str) : Str := s.map Char.toLower

/-- Python `str.split(sep)` for a single-character separator: keeps empty
pieces, always returns at least one piece. -/
def splitOnChar (sep : Char) : Str → List Str
  | [] => [[]]
  | c :: cs =>
    match splitOnChar sep cs with
    | [] => [[]]
    | h :: t => if c = sep then [] :: h :: t else (c :: h) :: t

/-- Python `'\n'.join(pieces)`. -/
def joinNL (pieces : List Str) : Str := List.intercalate ['\n'] pieces

/-- Python `needle in haystack` substring test (argument order: needle first). -/
def strIn (needle : Str) : Str → Bool
  | [] => needle.isPrefixOf []
  | c :: cs => needle.isPrefixOf (c :: cs) || strIn needle cs

/-- Character class `\w` of Python's `re` module, for the ASCII inputs used
here: letters, digits and underscore. -/
def isWordChar (c : Char) : Bool := c.isAlphanum || c == '_'

/-- One match attempt of the pattern `\{\{(\w+)\}\}` at the head of the input:
two opening braces, a non-empty maximal run of word characters, two closing
braces.  Returns the captured word and the input remaining after the match. -/
def tryVar (l : Str) : Option (Str × Str) :=
  match l with
  | '\x7b' :: '\x7b' :: rest =>
    let w := rest.takeWhile isWordChar
    match rest.dropWhile isWordChar with
    | '\x7d' :: '\x7d' :: tail => if w = [] then none else some (w, tail)
    | _ => none
  | _ => none

/-- Embedding of `re.findall(r'\{\{(\w+)\}\}', content)`: scan every position
left to right and collect the matches.  Python's scanner resumes after each
match rather than one character later, but for this pattern the two coincide:
a successful match starting at position `i` makes a match at any position
strictly inside the matched span impossible (the interior holds word
characters and single closing braces, never two consecutive opening braces),
so scanning every position finds exactly the non-overlapping matches. -/
def scanVars : Str → List Str
  | [] => []
  | c :: cs =>
    match tryVar (c :: cs) with
    | some (w, _) => w :: scanVars cs
    | none => scanVars cs

/-- Embedding of `SyncService._extract_template_variables`: collect
`\{\{word\}\}` placeholders and deduplicate.  The source deduplicates with
`list(set(variables))`, whose ordering Python leaves unspecified; the model
keeps the first occurrence of each variable.  The claims evaluate this only at
inputs with a single distinct variable, where every ordering agrees. -/
def extract_template_variables (content : Str) : List Str :=
  (scanVars content).dedup

/-- Embedding of `SyncService._detect_template_type`: lowercase the content
and test fixed keywords as plain substrings, first match wins. -/
def detect_template_type (content : Str) : Str :=
  let content_lower := pyLower content
  if strIn "response".toList content_lower || strIn "answer".toList content_lower then
    "response".toList
  else if strIn "question".toList content_lower || strIn "query".toList content_lower then
    "question".toList
  else if strIn "greeting".toList content_lower then
    "greeting".toList
  else if strIn "farewell".toList content_lower then
    "farewell".toList
  else
    "general".toList

/-- The template record assembled by `SyncService._process_template_file`.
The source's `type` and `variables` keys are named `ttype` and `tvars`,
because both words are taken in Lean. -/
structure TemplateData where
  name : Str
  content : Str
  ttype : Str
  tvars : List Str
deriving DecidableEq

/-- Embedding of the record construction in
`SyncService._process_template_file`: `name` is the filename stem, `type` and
`variables` come from the two extractors above. -/
def process_template_data (stem content : Str) : TemplateData :=
  ⟨stem, content, detect_template_type content, extract_template_variables content⟩

/-- A Python dict with string keys and string values, as an association list.
`dictInsert` mirrors dict assignment `d[k] = v`: replace the value in place if
the key is present, append otherwise. -/
abbrev Dict := List (Str × Str)

/-- Python dict assignment `d[k] = v`. -/
def dictInsert (d : Dict) (k v : Str) : Dict :=
  if d.any (fun p => p.1 == k) then
    d.map (fun p => if p.1 = k then (k, v) else p)
  else
    d ++ [(k, v)]

/-- Python `d.get(k)` / `k in d` combined: first value stored under `k`. -/
def dictFind (d : Dict) (k : Str) : Option Str :=
  match d with
  | [] => none
  | (k0, v) :: t => if k0 = k then some v else dictFind t k

/-- Python `line.startswith('#')`, applied after stripping. -/
def isHeading (l : Str) : Bool :=
  match l with
  | '#' :: _ => true
  | _ => false

/-- The section key computed by both parsers:
`line.lstrip('# ').lower().replace(' ', '_')`.  `lstrip('# ')` removes every
leading character belonging to the set `\x7b'#', ' '\x7d`. -/
def headingKey (l : Str) : Str :=
  ((l.dropWhile (fun c => c == '#' || c == ' ')).map Char.toLower).map
    (fun c => if c = ' ' then '_' else c)

/-- `content.split('\n')` followed by the per-line `line.strip()` that both
parsers apply at the top of their loop. -/
def prepLines (content : Str) : List Str :=
  (splitOnChar '\n' content).map pyStrip

/-- The section-collecting loop of `SyncService._parse_markdown_profile`,
including the final flush after the loop.  State: the dict built so far, the
current section key `cur`, and the collected section lines `acc`.  Python's
`current_section` starts as `None` and can also become `''` (a heading whose
text strips to nothing); both are falsy in every test the source performs on
it, so the model uses the empty string `[]` for both. -/
def profileGo (lines : List Str) (d : Dict) (cur : Str) (acc : List Str) : Dict :=
  match lines with
  | [] => if cur ≠ [] ∧ acc ≠ [] then dictInsert d cur (pyStrip (joinNL acc)) else d
  | l :: ls =>
    if isHeading l then
      profileGo ls
        (if cur ≠ [] ∧ acc ≠ [] then dictInsert d cur (pyStrip (joinNL acc)) else d)
        (headingKey l) []
    else if cur ≠ [] ∧ l ≠ [] then
      profileGo ls d cur (acc ++ [l])
    else
      profileGo ls d cur acc

/-- The section dictionary computed by `SyncService._parse_markdown_profile`
before its metadata step. -/
def profileSections (content : Str) : Dict :=
  profileGo (prepLines content) [] [] []

/-- The section-collecting loop of `SyncService._parse_markdown_character`.
The source duplicates the profile loop line for line; the model keeps a
separate copy so that the two parsers can be compared as they stand. -/
def characterGo (lines : List Str) (d : Dict) (cur : Str) (acc : List Str) : Dict :=
  match lines with
  | [] => if cur ≠ [] ∧ acc ≠ [] then dictInsert d cur (pyStrip (joinNL acc)) else d
  | l :: ls =>
    if isHeading l then
      characterGo ls
        (if cur ≠ [] ∧ acc ≠ [] then dictInsert d cur (pyStrip (joinNL acc)) else d)
        (headingKey l) []
    else if cur ≠ [] ∧ l ≠ [] then
      characterGo ls d cur (acc ++ [l])
    else
      characterGo ls d cur acc

/-- Embedding of `SyncService._parse_markdown_character`: the section loop and
nothing else — the source has no metadata handling in this parser. -/
def parse_markdown_character (content : Str) : Dict :=
  characterGo (prepLines content) [] [] []

/-- Result of `SyncService._parse_markdown_profile`.  The source stores the
parsed YAML under the dict key `'metadata_parsed'`; since that value is a
YAML object rather than a string, the model keeps it in a separate field
(`none` = key absent). -/
structure ProfileData where
  sections : Dict
  metadata_parsed : Option Str
deriving DecidableEq

/-- Embedding of `SyncService._parse_markdown_profile`: run the section loop;
then, if a `metadata` section exists, split its value into lines, drop the
first and last line (the source's `metadata_lines[1:-1]`), and hand the
rejoined text to `yaml.safe_load` — modelled by the parameter `yload`, where
`none` means the YAML parser raised, which the source swallows with a bare
`except: pass`, leaving `metadata_parsed` unset. -/
def parse_markdown_profile (yload : Str → Option Str) (content : Str) : ProfileData :=
  let d := profileSections content
  match dictFind d ("metadata".toList) with
  | none => ⟨d, none⟩
  | some v =>
    let mlines := splitOnChar '\n' v
    let mcontent := joinNL ((mlines.drop 1).dropLast)
    match yload mcontent with
    | some y => ⟨d, some y⟩
    | none => ⟨d, none⟩

/-- Embedding of the record construction in `SyncService._process_profile_file`:
parse the document, then set `profile_data['id']` to the filename stem. -/
def process_profile_data (yload : Str → Option Str) (stem content : Str) : ProfileData :=
  let p := parse_markdown_profile yload content
  ⟨dictInsert p.sections ("id".toList) stem, p.metadata_parsed⟩

/-- Modelled from the spec (§4.4 parsing contract, amended): the list of
`(heading text, following raw lines)` pairs of a document, one per heading
line, with the lines before the first heading discarded.  This is the
spec-side description against which the imperative loops above are compared;
it is not part of the source. -/
def splitSecs (lines : List Str) : List (Str × List Str) :=
  match lines with
  | [] => []
  | l :: ls =>
    if isHeading l then
      (headingKey l, ls.takeWhile (fun x => ! isHeading x)) ::
        splitSecs (ls.dropWhile (fun x => ! isHeading x))
    else
      splitSecs ls
termination_by lines.length
decreasing_by
  · exact Nat.lt_succ_of_le (List.Sublist.length_le (List.dropWhile_sublist _))
  · exact Nat.lt_succ_self _

/-- Modelled from the spec (amended): fold one section into the dictionary —
a section contributes a key exactly when its heading text is non-empty and it
has at least one non-empty line; its value is those non-empty lines joined
with newlines and stripped. -/
def specFoldStep (d : Dict) (sec : Str × List Str) : Dict :=
  let ne := sec.2.filter (fun x => ! x.isEmpty)
  if sec.1 ≠ [] ∧ ne ≠ [] then dictInsert d sec.1 (pyStrip (joinNL ne)) else d

/-- Modelled from the spec (amended): the section dictionary described by the
parsing contract, built from `splitSecs` left to right (so a later duplicate
heading overwrites an earlier one). -/
def specSections (content : Str) : Dict :=
  (splitSecs (prepLines content)).foldl specFoldStep []

/-- Embedding of `SyncService._get_file_hash`: the function computes a SHA-256
hex digest but catches every exception itself and returns the empty string
instead of raising.  The model takes the outcome of the attempt — `some h` for
a computed digest `h`, `none` for a failed read — and reproduces the error
sentinel. -/
def get_file_hash (readResult : Option Str) : Str :=
  match readResult with
  | some h => h
  | none => []

/-- Embedding of `SyncService._should_sync_file`.  Inputs are the outcomes of
the three fallible steps, in source order:

* `hashResult`: outcome of `_get_file_hash` (`none` = hashing raised inside
  `_get_file_hash`, which swallows it and yields `''`);
* `lookupResult`: outcome of the tracking-database lookup (`none` = the query
  raised, caught by the outer handler which returns `True`; `some none` = no
  row for this path; `some (some (h, m))` = stored hash and mtime);
* `statResult`: outcome of `file_path.stat().st_mtime` (`none` = raised,
  caught by the outer handler).

The decision then mirrors the source: no row → sync; differing hash → sync;
absolute mtime difference above 1 → sync; otherwise skip. -/
def should_sync (hashResult : Option Str) (lookupResult : Option (Option (Str × Int)))
    (statResult : Option Int) : Bool :=
  let current_hash := get_file_hash hashResult
  match lookupResult with
  | none => true
  | some none => true
  | some (some (stored_hash, stored_modified)) =>
    match statResult with
    | none => true
    | some file_modified =>
      if current_hash ≠ stored_hash then true
      else if 1 < (file_modified - stored_modified).natAbs then true
      else false

/-- One file of the vault: its path (the tracking key is `str(file_path)`),
its content, and its filesystem mtime. -/
structure VFile where
  path : Str
  content : Str
  mtime : Int
deriving DecidableEq

/-- The `file_tracking` table: one row per path holding the stored content
hash and stored mtime.  (`sync_status`, `last_sync` and `file_type` are also
stored by the source but never read back by the pass logic.) -/
abbrev Store := List (Str × Str × Int)

/-- Row lookup `SELECT file_hash, last_modified FROM file_tracking WHERE
file_path = ?` (the path column is UNIQUE). -/
def storeFind (st : Store) (p : Str) : Option (Str × Int) :=
  match st with
  | [] => none
  | (q, h, m) :: t => if q = p then some (h, m) else storeFind t p

/-- Embedding of `INSERT OR REPLACE INTO file_tracking ...` in
`SyncService._update_file_tracking`: the `file_path` column is UNIQUE, so the
statement replaces the row for the path if one exists and appends a row
otherwise. -/
def storeUpsert : Store → Str → Str → Int → Store
  | [], p, h, m => [(p, h, m)]
  | e :: t, p, h, m => if e.1 = p then (p, h, m) :: t else e :: storeUpsert t p h m

/-- `_should_sync_file` in the fault-free regime of one pass over an intact
filesystem: the hash of `f` computes to `hashF f.content`, the tracking lookup
succeeds, and `stat` returns `f.mtime`. -/
def should_sync_pure (hashF : Str → Str) (st : Store) (f : VFile) : Bool :=
  should_sync (some (hashF f.content)) (some (storeFind st f.path)) (some f.mtime)

/-- Per-category counters of one pass (`results` dict of `_sync_profiles` and
its three siblings, without the error list). -/
structure Counts3 where
  processed : Nat
  updated : Nat
  skipped : Nat
deriving DecidableEq, Repr

/-- Embedding of the per-category loop shared by `_sync_profiles`,
`_sync_characters`, `_sync_knowledge` and `_sync_templates`, specialised to
the fault-free regime used by the idempotence claim: `_should_sync_file`
decides; on sync, processing succeeds iff `procOk` holds of the content (the
`_process_*_file` functions catch all their exceptions and return a boolean,
and parsing is deterministic in the content); a successful processing runs
`_update_file_tracking`, which re-hashes the file and upserts its row; a
failed one leaves the store untouched. -/
def categoryPass (hashF : Str → Str) (procOk : Str → Bool) :
    List VFile → Store → Counts3 × Store
  | [], st => (⟨0, 0, 0⟩, st)
  | f :: fs, st =>
    if should_sync_pure hashF st f then
      if procOk f.content then
        let r := categoryPass hashF procOk fs (storeUpsert st f.path (hashF f.content) f.mtime)
        (⟨r.1.processed + 1, r.1.updated + 1, r.1.skipped⟩, r.2)
      else
        let r := categoryPass hashF procOk fs st
        (⟨r.1.processed + 1, r.1.updated, r.1.skipped + 1⟩, r.2)
    else
      let r := categoryPass hashF procOk fs st
      (⟨r.1.processed + 1, r.1.updated, r.1.skipped + 1⟩, r.2)

/-- One full pass of `sync_vault_to_db` over the four category file lists in
their fixed order, threading the tracking store through, and returning the
per-category counters. -/
def fullPass (hashF : Str → Str) (procOk : Str → Bool) :
    List (List VFile) → Store → List Counts3 × Store
  | [], st => ([], st)
  | c :: cs, st =>
    let r := categoryPass hashF procOk c st
    let rest := fullPass hashF procOk cs r.2
    (r.1 :: rest.1, rest.2)

/-- Outcome of handling one file inside a category loop, as observed by the
counting logic: either the per-file body raised (caught by the per-file
handler, which only appends an error message), or it ran `_should_sync_file`
(first Boolean) and, when that was true, `_process_*_file` (second Boolean). -/
inductive FileStep where
  | raised : FileStep
  | ran : Bool → Bool → FileStep
deriving DecidableEq

/-- Per-category counters including the error count (length of the `errors`
list of strings in the source). -/
structure Counts where
  processed : Nat
  updated : Nat
  skipped : Nat
  errors : Nat
deriving DecidableEq, Repr

/-- The body of the per-file loop in `_sync_profiles` (and its three
siblings), acting on the counters: a raised body only appends an error; a run
body increments `updated` or `skipped` according to the two Booleans and
always increments `processed`. -/
def syncFileStep (c : Counts) (f : FileStep) : Counts :=
  match f with
  | .raised => { c with errors := c.errors + 1 }
  | .ran true true => { c with updated := c.updated + 1, processed := c.processed + 1 }
  | .ran true false => { c with skipped := c.skipped + 1, processed := c.processed + 1 }
  | .ran false _ => { c with skipped := c.skipped + 1, processed := c.processed + 1 }

/-- Counters returned by one category function: fold the loop over the files
it reached, then add one error if the surrounding category-level handler
caught an enumeration failure (`enumFail`). -/
def catCounts (enumFail : Bool) (files : List FileStep) : Counts :=
  let c := files.foldl syncFileStep ⟨0, 0, 0, 0⟩
  if enumFail then { c with errors := c.errors + 1 } else c

/-- What one entry of the `categories` list of `sync_vault_to_db` produced:
`none` if the `sync_function()` call itself raised (caught by the per-category
handler in `sync_vault_to_db`, which only appends an error), otherwise the
enumeration-failure flag and the per-file outcomes. -/
abbrev CatOutcome := Option (Bool × List FileStep)

/-- The aggregation loop of `sync_vault_to_db`: sum the per-category counters
into the `results` dict. -/
def sync_vault_counts (cats : List CatOutcome) : Counts :=
  cats.foldl
    (fun acc c =>
      match c with
      | none => { acc with errors := acc.errors + 1 }
      | some (ef, fs) =>
        let r := catCounts ef fs
        ⟨acc.processed + r.processed, acc.updated + r.updated,
          acc.skipped + r.skipped, acc.errors + r.errors⟩)
    ⟨0, 0, 0, 0⟩

/-- Overall status of one invocation of `sync_vault_to_db`. -/
inductive PassStatus where
  | success : PassStatus
  | error : PassStatus
  | warning : PassStatus
deriving DecidableEq

/-- Embedding of `SyncService.sync_vault_to_db`'s control skeleton.  Inputs:
the value of `self.is_syncing` read by the guard, the category outcomes, and
whether the code between the category loop and the normal return raised
(`outerRaise`; the `except Exception` arm then stamps `status = 'error'` on
the results accumulated so far).  Returns the result and the final value of
`self.is_syncing`: the `finally` clause sets the flag back to `False` on every
path that entered the pass, while the early `already in progress` return
leaves the flag untouched. -/
def sync_vault_to_db (is_syncing : Bool) (cats : List CatOutcome) (outerRaise : Bool) :
    (Counts × PassStatus) × Bool :=
  if is_syncing then
    ((⟨0, 0, 0, 0⟩, .warning), is_syncing)
  else
    ((sync_vault_counts cats, if outerRaise then .error else .success), false)

/-- Result observed by one caller of `sync_vault_to_db` in the concurrency
model. -/
inductive CallRes where
  | alreadyInProgress : CallRes
  | completed : CallRes
deriving DecidableEq, Repr

/-- State of two threads racing into `sync_vault_to_db`, with the shared
`is_syncing` flag and the number of `SyncOperationRecord` rows appended by
`_update_sync_tracking`.  Each thread is at a program counter:

* 0 — about to execute line 218, `if self.is_syncing:` — reads the flag; if
  set, the call returns the `already in progress` result;
* 1 — about to execute line 222, `self.is_syncing = True`;
* 2 — runs the pass body: appends one sync-operation record, then the
  `finally` clause clears the flag and the call returns normally;
* 3 — finished.

Reading the flag and branching on the value read is one atomic step, as is
each assignment; the race of interest is between the read at pc 0 and the
write at pc 1, which the source performs as two separate statements on a
plain attribute with no lock. -/
structure RaceState where
  is_syncing : Bool
  opCount : Nat
  pc1 : Nat
  pc2 : Nat
  res1 : Option CallRes
  res2 : Option CallRes
deriving DecidableEq, Repr

/-- One atomic step of one thread: from its pc and the shared state, the new
pc, flag, record count, and (when the call finishes) its result. -/
def threadStep (pc : Nat) (flag : Bool) (ops : Nat) :
    Nat × Bool × Nat × Option CallRes :=
  match pc with
  | 0 => if flag then (3, flag, ops, some .alreadyInProgress) else (1, flag, ops, none)
  | 1 => (2, true, ops, none)
  | 2 => (3, false, ops + 1, some .completed)
  | _ => (pc, flag, ops, none)

/-- Run one scheduler choice: `false` steps thread 1, `true` steps thread 2. -/
def raceStep (s : RaceState) (t : Bool) : RaceState :=
  if t then
    let r := threadStep s.pc2 s.is_syncing s.opCount
    { s with
      pc2 := r.1
      is_syncing := r.2.1
      opCount := r.2.2.1
      res2 := (match r.2.2.2 with | some v => some v | none => s.res2) }
  else
    let r := threadStep s.pc1 s.is_syncing s.opCount
    { s with
      pc1 := r.1
      is_syncing := r.2.1
      opCount := r.2.2.1
      res1 := (match r.2.2.2 with | some v => some v | none => s.res1) }

/-- Execute a schedule from the initial state (flag clear, no records, both
threads at the guard). -/
def runRace (sched : List Bool) : RaceState :=
  sched.foldl raceStep ⟨false, 0, 0, 0, none, none⟩

/-- Componentwise sum of counters (used to state how the loop accumulates). -/
def countsAdd (a b : Counts) : Counts :=
  ⟨a.processed + b.processed, a.updated + b.updated, a.skipped + b.skipped, a.errors + b.errors⟩

/-- A file is settled with respect to a store: either the change detector
skips it, or its processing fails (deterministically, by content). -/
def goodFile (hashF : Str → Str) (procOk : Str → Bool) (st : Store) (f : VFile) : Prop :=
  should_sync_pure hashF st f = false ∨ procOk f.content = false

/-! ### Helper lemmas -/

theorem characterGo_eq_profileGo (lines : List Str) :
    ∀ d cur acc, characterGo lines d cur acc = profileGo lines d cur acc := by
  induction lines with
  | nil => intro d cur acc; rfl
  | cons l ls ih =>
    intro d cur acc
    simp only [characterGo, profileGo]
    by_cases h1 : isHeading l
    · simp [h1, ih]
    · by_cases h2 : cur ≠ [] ∧ l ≠ [] <;> simp [h1, h2, ih]

theorem splitSecs_skip (ls : List Str) :
    splitSecs ls = splitSecs (ls.dropWhile (fun x => ! isHeading x)) := by
  induction ls with
  | nil => rfl
  | cons x t ih =>
    by_cases h : isHeading x
    · simp [List.dropWhile, h]
    · rw [splitSecs]
      simp [List.dropWhile, h, ih]

theorem specFoldStep_filter (d : Dict) (k : Str) (body : List Str) :
    specFoldStep d (k, body.filter (fun x => ! x.isEmpty)) = specFoldStep d (k, body) := by
  simp [specFoldStep, List.filter_filter]

theorem profileGo_spec (lines : List Str) :
    ∀ (d : Dict) (cur : Str) (acc : List Str),
      acc.filter (fun x => ! x.isEmpty) = acc →
      profileGo lines d cur acc =
        if cur = [] then
          (splitSecs lines).foldl specFoldStep d
        else
          ((cur, acc ++ (lines.takeWhile (fun x => ! isHeading x)).filter (fun x => ! x.isEmpty)) ::
            splitSecs (lines.dropWhile (fun x => ! isHeading x))).foldl specFoldStep d := by
  induction lines with
  | nil =>
    intro d cur acc hacc
    by_cases hc : cur = []
    · simp [profileGo, hc, splitSecs]
    · simp only [profileGo, List.takeWhile_nil, List.dropWhile_nil, List.filter_nil,
        List.append_nil, hc, if_neg hc, splitSecs, List.foldl_cons, List.foldl_nil]
      simp [specFoldStep, hacc, hc]
  | cons l ls ih =>
    intro d cur acc hacc
    by_cases h1 : isHeading l
    · have hflush :
          profileGo (l :: ls) d cur acc = profileGo ls
            (if cur ≠ [] ∧ acc ≠ [] then dictInsert d cur (pyStrip (joinNL acc)) else d)
            (headingKey l) [] := by
        simp [profileGo, h1]
      have hsplit : splitSecs (l :: ls) =
          (headingKey l, ls.takeWhile (fun x => ! isHeading x)) ::
            splitSecs (ls.dropWhile (fun x => ! isHeading x)) := by
        rw [splitSecs]; simp [h1]
      have hrest :
          profileGo ls
              (if cur ≠ [] ∧ acc ≠ [] then dictInsert d cur (pyStrip (joinNL acc)) else d)
              (headingKey l) [] =
            (splitSecs (l :: ls)).foldl specFoldStep
              (if cur ≠ [] ∧ acc ≠ [] then dictInsert d cur (pyStrip (joinNL acc)) else d) := by
        rw [ih _ (headingKey l) [] rfl]
        by_cases hk : headingKey l = []
        · rw [if_pos hk, hsplit, List.foldl_cons]
          have hstep : specFoldStep
              (if cur ≠ [] ∧ acc ≠ [] then dictInsert d cur (pyStrip (joinNL acc)) else d)
              (headingKey l, ls.takeWhile (fun x => ! isHeading x)) =
              (if cur ≠ [] ∧ acc ≠ [] then dictInsert d cur (pyStrip (joinNL acc)) else d) := by
            simp [specFoldStep, hk]
          rw [hstep, splitSecs_skip ls]
        · rw [if_neg hk, hsplit, List.foldl_cons, List.foldl_cons, List.nil_append,
            specFoldStep_filter]
      by_cases hc : cur = []
      · rw [hflush, hrest, if_pos hc]
        have : (if cur ≠ [] ∧ acc ≠ [] then dictInsert d cur (pyStrip (joinNL acc)) else d) = d := by
          simp [hc]
        rw [this]
      · rw [hflush, hrest, if_neg hc]
        have htake : (l :: ls).takeWhile (fun x => ! isHeading x) = [] := by
          simp [List.takeWhile_cons, h1]
        have hdrop : (l :: ls).dropWhile (fun x => ! isHeading x) = l :: ls := by
          simp [List.dropWhile_cons, h1]
        rw [htake, hdrop, List.filter_nil, List.append_nil, List.foldl_cons]
        have hstep : specFoldStep d (cur, acc) =
            (if cur ≠ [] ∧ acc ≠ [] then dictInsert d cur (pyStrip (joinNL acc)) else d) := by
          simp [specFoldStep, hacc, hc]
        rw [hstep]
    · have hsplit : splitSecs (l :: ls) = splitSecs ls := by
        rw [splitSecs]; simp [h1]
      by_cases hc : cur = []
      · have hgo : profileGo (l :: ls) d cur acc = profileGo ls d cur acc := by
          simp [profileGo, h1, hc]
        rw [hgo, ih _ _ _ hacc, if_pos hc, if_pos hc, hsplit]
      · by_cases hl : l = []
        · subst hl
          have hgo : profileGo ([] :: ls) d cur acc = profileGo ls d cur acc := by
            simp [profileGo, isHeading]
          have htake : (([] : Str) :: ls).takeWhile (fun x => ! isHeading x) =
              ([] : Str) :: ls.takeWhile (fun x => ! isHeading x) := by
            simp [List.takeWhile_cons, isHeading]
          have hdrop : (([] : Str) :: ls).dropWhile (fun x => ! isHeading x) =
              ls.dropWhile (fun x => ! isHeading x) := by
            simp [List.dropWhile_cons, isHeading]
          rw [hgo, ih _ _ _ hacc, if_neg hc, if_neg hc, htake, hdrop]
          simp [List.filter_cons]
        · have hgo : profileGo (l :: ls) d cur acc = profileGo ls d cur (acc ++ [l]) := by
            simp [profileGo, h1, hc, hl]
          have hlne : l.isEmpty = false := by
            cases l with
            | nil => exact absurd rfl hl
            | cons a t => rfl
          have hacc2 : (acc ++ [l]).filter (fun x => ! x.isEmpty) = acc ++ [l] := by
            rw [List.filter_append, hacc]
            simp [List.filter_cons, hlne]
          have htake : (l :: ls).takeWhile (fun x => ! isHeading x) =
              l :: ls.takeWhile (fun x => ! isHeading x) := by
            simp [List.takeWhile_cons, h1]
          have hdrop : (l :: ls).dropWhile (fun x => ! isHeading x) =
              ls.dropWhile (fun x => ! isHeading x) := by
            simp [List.dropWhile_cons, h1]
          rw [hgo, ih _ _ _ hacc2, if_neg hc, if_neg hc, htake, hdrop]
          simp [List.filter_cons, hlne, List.append_assoc]

theorem profileSections_eq_spec (content : Str) :
    profileSections content = specSections content := by
  have h := profileGo_spec (prepLines content) [] [] [] rfl
  simpa [profileSections, specSections] using h

theorem storeFind_upsert_self (st : Store) (p : Str) (h : Str) (m : Int) :
    storeFind (storeUpsert st p h m) p = some (h, m) := by
  induction st with
  | nil => simp [storeUpsert, storeFind]
  | cons e t ih =>
    by_cases h1 : e.1 = p
    · simp [storeUpsert, h1, storeFind]
    · simp only [storeUpsert, if_neg h1, storeFind]
      exact ih

theorem storeFind_upsert_other (st : Store) (p q : Str) (h : Str) (m : Int)
    (hq : q ≠ p) : storeFind (storeUpsert st p h m) q = storeFind st q := by
  induction st with
  | nil =>
    have h2 : ¬ (p = q) := fun hpq => hq hpq.symm
    simp [storeUpsert, storeFind, h2]
  | cons e t ih =>
    by_cases h1 : e.1 = p
    · have h2 : ¬ (p = q) := fun hpq => hq hpq.symm
      have h3 : ¬ (e.1 = q) := by rw [h1]; exact h2
      simp [storeUpsert, h1, storeFind, h2, h3]
    · simp only [storeUpsert, if_neg h1, storeFind]
      by_cases h3 : e.1 = q
      · rw [if_pos h3, if_pos h3]
      · rw [if_neg h3, if_neg h3]
        exact ih

theorem should_sync_pure_congr (hashF : Str → Str) (st1 st2 : Store) (f : VFile)
    (h : storeFind st1 f.path = storeFind st2 f.path) :
    should_sync_pure hashF st1 f = should_sync_pure hashF st2 f := by
  simp [should_sync_pure, h]

theorem should_sync_self (hashF : Str → Str) (f : VFile) (st : Store)
    (h : storeFind st f.path = some (hashF f.content, f.mtime)) :
    should_sync_pure hashF st f = false := by
  simp [should_sync_pure, h, should_sync, get_file_hash]

theorem categoryPass_find_preserve (hashF : Str → Str) (procOk : Str → Bool)
    (fs : List VFile) :
    ∀ (st : Store) (p : Str), p ∉ fs.map (fun f => f.path) →
      storeFind (categoryPass hashF procOk fs st).2 p = storeFind st p := by
  induction fs with
  | nil => intro st p _; rfl
  | cons f t ih =>
    intro st p hp
    simp only [List.map_cons, List.mem_cons] at hp
    push_neg at hp
    rw [categoryPass]
    by_cases h1 : should_sync_pure hashF st f = true
    · rw [if_pos h1]
      by_cases h2 : procOk f.content = true
      · rw [if_pos h2]
        rw [ih _ p hp.2, storeFind_upsert_other _ _ _ _ _ hp.1]
      · rw [if_neg h2]
        exact ih _ p hp.2
    · rw [if_neg h1]
      exact ih _ p hp.2

theorem categoryPass_cons_skip (hashF : Str → Str) (procOk : Str → Bool)
    (f : VFile) (fs : List VFile) (st : Store)
    (h1 : should_sync_pure hashF st f = false) :
    categoryPass hashF procOk (f :: fs) st =
      (⟨(categoryPass hashF procOk fs st).1.processed + 1,
        (categoryPass hashF procOk fs st).1.updated,
        (categoryPass hashF procOk fs st).1.skipped + 1⟩,
        (categoryPass hashF procOk fs st).2) := by
  rw [categoryPass]
  rw [if_neg (by simp [h1])]

theorem categoryPass_cons_fail (hashF : Str → Str) (procOk : Str → Bool)
    (f : VFile) (fs : List VFile) (st : Store)
    (h1 : should_sync_pure hashF st f = true) (h2 : procOk f.content = false) :
    categoryPass hashF procOk (f :: fs) st =
      (⟨(categoryPass hashF procOk fs st).1.processed + 1,
        (categoryPass hashF procOk fs st).1.updated,
        (categoryPass hashF procOk fs st).1.skipped + 1⟩,
        (categoryPass hashF procOk fs st).2) := by
  rw [categoryPass]
  rw [if_pos h1, if_neg (by simp [h2])]

theorem categoryPass_cons_ok (hashF : Str → Str) (procOk : Str → Bool)
    (f : VFile) (fs : List VFile) (st : Store)
    (h1 : should_sync_pure hashF st f = true) (h2 : procOk f.content = true) :
    categoryPass hashF procOk (f :: fs) st =
      (⟨(categoryPass hashF procOk fs (storeUpsert st f.path (hashF f.content) f.mtime)).1.processed + 1,
        (categoryPass hashF procOk fs (storeUpsert st f.path (hashF f.content) f.mtime)).1.updated + 1,
        (categoryPass hashF procOk fs (storeUpsert st f.path (hashF f.content) f.mtime)).1.skipped⟩,
        (categoryPass hashF procOk fs (storeUpsert st f.path (hashF f.content) f.mtime)).2) := by
  rw [categoryPass]
  rw [if_pos h1, if_pos h2]

theorem goodFile_congr (hashF : Str → Str) (procOk : Str → Bool) (st1 st2 : Store)
    (f : VFile) (h : storeFind st1 f.path = storeFind st2 f.path) :
    goodFile hashF procOk st1 f → goodFile hashF procOk st2 f := by
  intro hg
  rcases hg with h1 | h2
  · left
    rw [← should_sync_pure_congr hashF st1 st2 f h]
    exact h1
  · right
    exact h2

theorem good_after_pass (hashF : Str → Str) (procOk : Str → Bool) (fs : List VFile) :
    ∀ (st : Store), (fs.map (fun f => f.path)).Nodup →
      ∀ f ∈ fs, goodFile hashF procOk (categoryPass hashF procOk fs st).2 f := by
  induction fs with
  | nil => intro st _ f hf; simp at hf
  | cons g t ih =>
    intro st hnd f hf
    simp only [List.map_cons, List.nodup_cons] at hnd
    obtain ⟨hgp, hndt⟩ := hnd
    by_cases h1 : should_sync_pure hashF st g = true
    · by_cases h2 : procOk g.content = true
      · rw [categoryPass_cons_ok hashF procOk g t st h1 h2]
        rcases List.mem_cons.mp hf with hfg | hft
        · subst hfg
          left
          have hpres := categoryPass_find_preserve hashF procOk t
            (storeUpsert st f.path (hashF f.content) f.mtime) f.path hgp
          have hself := storeFind_upsert_self st f.path (hashF f.content) f.mtime
          exact should_sync_self hashF f _ (by rw [hpres, hself])
        · exact ih _ hndt f hft
      · have h2f : procOk g.content = false := by simpa using h2
        rw [categoryPass_cons_fail hashF procOk g t st h1 h2f]
        rcases List.mem_cons.mp hf with hfg | hft
        · subst hfg
          right
          exact h2f
        · exact ih _ hndt f hft
    · have h1f : should_sync_pure hashF st g = false := by simpa using h1
      rw [categoryPass_cons_skip hashF procOk g t st h1f]
      rcases List.mem_cons.mp hf with hfg | hft
      · subst hfg
        left
        have hpres := categoryPass_find_preserve hashF procOk t st f.path hgp
        rw [should_sync_pure_congr hashF _ st f hpres]
        exact h1f
      · exact ih _ hndt f hft

theorem categoryPass_of_good (hashF : Str → Str) (procOk : Str → Bool) (fs : List VFile) :
    ∀ (st : Store), (∀ f ∈ fs, goodFile hashF procOk st f) →
      (categoryPass hashF procOk fs st).1.updated = 0 ∧
        (categoryPass hashF procOk fs st).2 = st := by
  induction fs with
  | nil => intro st _; exact ⟨rfl, rfl⟩
  | cons g t ih =>
    intro st hgood
    have hrest := fun f hf => hgood f (List.mem_cons_of_mem g hf)
    rcases hgood g (List.mem_cons_self g t) with hss | hpf
    · rw [categoryPass_cons_skip hashF procOk g t st hss]
      exact ⟨(ih st hrest).1, (ih st hrest).2⟩
    · by_cases h1 : should_sync_pure hashF st g = true
      · rw [categoryPass_cons_fail hashF procOk g t st h1 hpf]
        exact ⟨(ih st hrest).1, (ih st hrest).2⟩
      · have h1f : should_sync_pure hashF st g = false := by simpa using h1
        rw [categoryPass_cons_skip hashF procOk g t st h1f]
        exact ⟨(ih st hrest).1, (ih st hrest).2⟩

theorem fullPass_cons (hashF : Str → Str) (procOk : Str → Bool)
    (c : List VFile) (cs : List (List VFile)) (st : Store) :
    fullPass hashF procOk (c :: cs) st =
      ((categoryPass hashF procOk c st).1 ::
          (fullPass hashF procOk cs (categoryPass hashF procOk c st).2).1,
        (fullPass hashF procOk cs (categoryPass hashF procOk c st).2).2) := by
  rfl

theorem fullPass_find_preserve (hashF : Str → Str) (procOk : Str → Bool)
    (cats : List (List VFile)) :
    ∀ (st : Store) (p : Str), (∀ c ∈ cats, p ∉ c.map (fun f => f.path)) →
      storeFind (fullPass hashF procOk cats st).2 p = storeFind st p := by
  induction cats with
  | nil => intro st p _; rfl
  | cons c cs ih =>
    intro st p hp
    rw [fullPass_cons]
    rw [ih _ p (fun d hd => hp d (List.mem_cons_of_mem c hd)),
      categoryPass_find_preserve hashF procOk c st p (hp c (List.mem_cons_self c cs))]

theorem good_after_fullPass (hashF : Str → Str) (procOk : Str → Bool)
    (cats : List (List VFile)) :
    ∀ (st : Store), ((cats.flatten.map (fun f => f.path)).Nodup) →
      ∀ c ∈ cats, ∀ f ∈ c, goodFile hashF procOk (fullPass hashF procOk cats st).2 f := by
  induction cats with
  | nil => intro st _ c hc; simp at hc
  | cons c0 cs ih =>
    intro st hnd c hc f hf
    rw [List.flatten_cons, List.map_append] at hnd
    have hnd0 : (c0.map (fun f => f.path)).Nodup := hnd.of_append_left
    have hnds : ((cs.flatten.map (fun f => f.path))).Nodup := hnd.of_append_right
    have hdisj := List.disjoint_of_nodup_append hnd
    rw [fullPass_cons]
    rcases List.mem_cons.mp hc with hc0 | hcs
    · subst hc0
      have hg : goodFile hashF procOk (categoryPass hashF procOk c st).2 f :=
        good_after_pass hashF procOk c st hnd0 f hf
      have hnotin : ∀ d ∈ cs, f.path ∉ d.map (fun x => x.path) := by
        intro d hd hmem
        have h1 : f.path ∈ c.map (fun x => x.path) := List.mem_map_of_mem _ hf
        have h2 : f.path ∈ cs.flatten.map (fun x => x.path) := by
          rcases List.mem_map.mp hmem with ⟨g, hg2, hg3⟩
          rw [← hg3]
          exact List.mem_map_of_mem _ (List.mem_flatten.mpr ⟨d, hd, hg2⟩)
        exact hdisj h1 h2
      have hpres := fullPass_find_preserve hashF procOk cs
        (categoryPass hashF procOk c st).2 f.path hnotin
      exact goodFile_congr hashF procOk _ _ f hpres.symm hg
    · exact ih (categoryPass hashF procOk c0 st).2 hnds c hcs f hf

theorem fullPass_updated_zero_of_good (hashF : Str → Str) (procOk : Str → Bool)
    (cats : List (List VFile)) :
    ∀ (st : Store), (∀ c ∈ cats, ∀ f ∈ c, goodFile hashF procOk st f) →
      ∀ r ∈ (fullPass hashF procOk cats st).1, r.updated = 0 := by
  induction cats with
  | nil => intro st _ r hr; simp [fullPass] at hr
  | cons c cs ih =>
    intro st hgood r hr
    have h0 := categoryPass_of_good hashF procOk c st
      (fun f hf => hgood c (List.mem_cons_self c cs) f hf)
    rw [fullPass_cons] at hr
    rcases List.mem_cons.mp hr with hr0 | hrs
    · rw [hr0]
      exact h0.1
    · rw [h0.2] at hrs
      exact ih st (fun d hd f hf => hgood d (List.mem_cons_of_mem c hd) f hf) r hrs

theorem foldl_syncFileStep_add (fs : List FileStep) :
    ∀ (c : Counts), fs.foldl syncFileStep c =
      countsAdd c (fs.foldl syncFileStep ⟨0, 0, 0, 0⟩) := by
  induction fs with
  | nil => intro c; simp [countsAdd]
  | cons f t ih =>
    intro c
    rw [List.foldl_cons, List.foldl_cons, ih (syncFileStep c f),
      ih (syncFileStep ⟨0, 0, 0, 0⟩ f)]
    cases f with
    | raised =>
      simp [syncFileStep, countsAdd, Counts.mk.injEq]
      omega
    | ran b1 b2 =>
      cases b1 <;> cases b2 <;>
        simp [syncFileStep, countsAdd, Counts.mk.injEq] <;> omega

theorem foldl_syncFileStep_inv (fs : List FileStep) :
    ∀ (c : Counts), c.processed = c.updated + c.skipped →
      (fs.foldl syncFileStep c).processed =
        (fs.foldl syncFileStep c).updated + (fs.foldl syncFileStep c).skipped := by
  induction fs with
  | nil => intro c hc; exact hc
  | cons f t ih =>
    intro c hc
    rw [List.foldl_cons]
    apply ih
    cases f with
    | raised => simpa [syncFileStep]
    | ran b1 b2 => cases b1 <;> cases b2 <;> simp [syncFileStep] <;> omega

theorem catCounts_inv (ef : Bool) (fs : List FileStep) :
    (catCounts ef fs).processed = (catCounts ef fs).updated + (catCounts ef fs).skipped := by
  cases ef <;> simpa [catCounts] using foldl_syncFileStep_inv fs ⟨0, 0, 0, 0⟩ rfl

theorem sync_vault_counts_inv (cats : List CatOutcome) :
    (sync_vault_counts cats).processed =
      (sync_vault_counts cats).updated + (sync_vault_counts cats).skipped := by
  suffices h : ∀ (acc : Counts), acc.processed = acc.updated + acc.skipped →
      (cats.foldl
        (fun acc c =>
          match c with
          | none => { acc with errors := acc.errors + 1 }
          | some (ef, fs) =>
            let r := catCounts ef fs
            ⟨acc.processed + r.processed, acc.updated + r.updated,
              acc.skipped + r.skipped, acc.errors + r.errors⟩)
        acc).processed =
      (cats.foldl
        (fun acc c =>
          match c with
          | none => { acc with errors := acc.errors + 1 }
          | some (ef, fs) =>
            let r := catCounts ef fs
            ⟨acc.processed + r.processed, acc.updated + r.updated,
              acc.skipped + r.skipped, acc.errors + r.errors⟩)
        acc).updated +
      (cats.foldl
        (fun acc c =>
          match c with
          | none => { acc with errors := acc.errors + 1 }
          | some (ef, fs) =>
            let r := catCounts ef fs
            ⟨acc.processed + r.processed, acc.updated + r.updated,
              acc.skipped + r.skipped, acc.errors + r.errors⟩)
        acc).skipped by
    exact h ⟨0, 0, 0, 0⟩ rfl
  induction cats with
  | nil => intro acc hacc; exact hacc
  | cons c cs ih =>
    intro acc hacc
    rw [List.foldl_cons]
    apply ih
    rcases c with _ | ⟨ef, fs⟩
    · simpa
    · have h2 := catCounts_inv ef fs
      simp
      omega

theorem dictInsert_mem (d : Dict) (k0 v0 k v : Str) :
    (k, v) ∈ dictInsert d k0 v0 → (k, v) ∈ d ∨ k = k0 := by
  unfold dictInsert
  by_cases hany : d.any (fun p => p.1 == k0) = true
  · rw [if_pos hany]
    intro h
    rcases List.mem_map.mp h with ⟨p, hp, hpe⟩
    by_cases hpk : p.1 = k0
    · rw [if_pos hpk] at hpe
      right
      exact (Prod.mk.injEq _ _ _ _ ▸ hpe :
        k0 = k ∧ v0 = v).1.symm
    · rw [if_neg hpk] at hpe
      left
      rw [← hpe]
      exact hp
  · rw [if_neg hany]
    intro h
    rcases List.mem_append.mp h with hd | hs
    · exact Or.inl hd
    · right
      rcases List.mem_singleton.mp hs with heq
      exact ((Prod.mk.injEq _ _ _ _).mp heq).1

theorem specFold_keys (secs : List (Str × List Str)) :
    ∀ (d : Dict) (k v : Str), (k, v) ∈ secs.foldl specFoldStep d →
      (∃ v0, (k, v0) ∈ d) ∨
        ∃ sec ∈ secs, sec.1 = k ∧ sec.1 ≠ [] ∧
          sec.2.filter (fun x => ! x.isEmpty) ≠ [] := by
  induction secs with
  | nil => intro d k v h; exact Or.inl ⟨v, h⟩
  | cons sec t ih =>
    intro d k v h
    rw [List.foldl_cons] at h
    rcases ih _ k v h with hd | hrec
    · obtain ⟨v0, hv0⟩ := hd
      by_cases hg : sec.1 ≠ [] ∧ sec.2.filter (fun x => ! x.isEmpty) ≠ []
      · rw [specFoldStep, if_pos hg] at hv0
        rcases dictInsert_mem d sec.1 _ k v0 hv0 with hin | hk
        · exact Or.inl ⟨v0, hin⟩
        · exact Or.inr ⟨sec, List.mem_cons_self sec t, hk.symm, hg.1, hg.2⟩
      · rw [specFoldStep, if_neg hg] at hv0
        exact Or.inl ⟨v0, hv0⟩
    · obtain ⟨s2, hs2, hx⟩ := hrec
      exact Or.inr ⟨s2, List.mem_cons_of_mem sec hs2, hx⟩

/-! ### Claim theorems -/

/-- C1 (code-bug evidence): the single-flight guard of `sync_vault_to_db` is
a bare read of `self.is_syncing` (line 218) followed by a separate write
(line 222) with no lock.  Under the interleaving in which both triggering
threads pass the read before either writes, BOTH invocations run a full
pass: two `SyncOperationRecord` entries are appended (`opCount = 2`) and both
callers return `completed`, neither observing `already in progress` —
refuting the claim that the guard is an atomic check-and-set under which
exactly one actual pass executes. -/
theorem C1_race_both_enter :
    (runRace [false, true, false, false, true, true]).opCount = 2 ∧
    (runRace [false, true, false, false, true, true]).res1 = some CallRes.completed ∧
    (runRace [false, true, false, false, true, true]).res2 = some CallRes.completed := by
  decide

/-- C2: on a path whose hash, tracking lookup and stat all succeed,
`_should_sync_file` returns True exactly when (a) no tracking row exists,
or (b) the current content hash differs from the stored hash, or (c) the
hashes agree but the absolute difference of current mtime and stored
`last_modified` exceeds 1 second; in all remaining cases it returns
False. -/
theorem C2_should_sync_cases (h : Str) (row : Option (Str × Int)) (m : Int) :
    should_sync (some h) (some row) (some m) = true ↔
      row = none
      ∨ (∃ sh sm, row = some (sh, sm) ∧ h ≠ sh)
      ∨ (∃ sh sm, row = some (sh, sm) ∧ h = sh ∧ 1 < (m - sm).natAbs) := by
  rcases row with _ | ⟨sh, sm⟩
  · simp [should_sync, get_file_hash]
  · by_cases hh : h = sh
    · subst hh
      by_cases hm : 1 < (m - sm).natAbs
      · simp [should_sync, get_file_hash, hm]
        exact ⟨h, sm, ⟨rfl, rfl⟩, rfl, hm⟩
      · simp [should_sync, get_file_hash, hm]
        omega
    · simp [should_sync, get_file_hash, hh]

/-- C3: every invocation of `sync_vault_to_db` that enters the Syncing state
(guard observed clear) terminates with `is_syncing` back at False — whatever
the category outcomes and whether or not the code after the category loop
raises — because the `finally` clause releases the guard on every exit path;
consequently a subsequent invocation against the released guard is not
turned away with the `already in progress` warning result. -/
theorem C3_guard_released (cats cats2 : List CatOutcome) (o o2 : Bool) :
    (sync_vault_to_db false cats o).2 = false ∧
    (sync_vault_to_db (sync_vault_to_db false cats o).2 cats2 o2).1.2 ≠
      PassStatus.warning := by
  refine ⟨rfl, ?_⟩
  cases o2 <;> simp [sync_vault_to_db]

/-- C4 (code-bug evidence): fail-open has a hole.  `_get_file_hash` swallows
its own exceptions and returns `''` instead of raising, so when the tracking
row for a path stores the empty-string hash and hashing fails again at
evaluation time, the sentinel compares equal to the stored hash and — with
mtimes within one second — `_should_sync_file` returns False: a silent skip
for a path whose hash could not be computed (first conjunct).  The remaining
conjuncts confirm that the other error paths (nonempty stored hash, lookup
raising, stat raising, missing row) do fail open to True. -/
theorem C4_hash_error_can_skip :
    should_sync none (some (some ([], 5))) (some 5) = false ∧
    should_sync none (some (some ("abc".toList, 5))) (some 5) = true ∧
    should_sync none none none = true ∧
    should_sync none (some (some ([], 5))) none = true ∧
    should_sync none (some none) (some 5) = true := by
  decide

/-- C5: idempotence of a pass.  For every content-hash function, every
deterministic per-content processing outcome, every vault (category file
lists with pairwise distinct paths) and every initial tracking store, running
a full pass and then a second full pass with no filesystem change in between
yields `updated = 0` in every per-category result of the second pass: each
file either got a tracking row recording exactly its current hash and mtime
when it was processed, or fails processing again and is counted skipped. -/
theorem C5_second_pass_updated_zero (hashF : Str → Str) (procOk : Str → Bool)
    (vault : List (List VFile)) (st0 : Store)
    (hnd : (vault.flatten.map (fun f => f.path)).Nodup) :
    ∀ r ∈ (fullPass hashF procOk vault (fullPass hashF procOk vault st0).2).1,
      r.updated = 0 :=
  fullPass_updated_zero_of_good hashF procOk vault _
    (good_after_fullPass hashF procOk vault st0 hnd)

/-- Witness for C5: a concrete two-category vault with distinct paths,
identity hash and always-succeeding processing; the second pass reports
`updated = 0` in both categories. -/
theorem C5_witness :
    (([[⟨"profiles/work.md".toList, "# name
A".toList, 3⟩],
       [⟨"characters/bob.md".toList, "# role
B".toList, 7⟩]] :
        List (List VFile)).flatten.map (fun f => f.path)).Nodup ∧
    (∀ r ∈ (fullPass (fun s => s) (fun _ => true)
        [[⟨"profiles/work.md".toList, "# name
A".toList, 3⟩],
         [⟨"characters/bob.md".toList, "# role
B".toList, 7⟩]]
        (fullPass (fun s => s) (fun _ => true)
          [[⟨"profiles/work.md".toList, "# name
A".toList, 3⟩],
           [⟨"characters/bob.md".toList, "# role
B".toList, 7⟩]] []).2).1,
      r.updated = 0) :=
  ⟨by decide,
    C5_second_pass_updated_zero (fun s => s) (fun _ => true)
      [[⟨"profiles/work.md".toList, "# name
A".toList, 3⟩],
       [⟨"characters/bob.md".toList, "# role
B".toList, 7⟩]] [] (by decide)⟩

/-- C6 counterexample: the claimed example output is wrong and the keyword
checks are not whole-word.  The example content contains no keyword at all,
so its type is `general`, not `greeting`; and the content `subquery` is
classified `question` because `query` occurs as a plain substring inside a
longer word, which a whole-word check would reject. -/
theorem C6_counterexample :
    detect_template_type ("Hello \x7b\x7buser_name\x7d\x7d, welcome!".toList) =
      "general".toList ∧
    detect_template_type ("subquery".toList) = "question".toList := by
  decide

/-- C6 amended: processing `templates/greeting.md` whose entire content is
`Hello \x7b\x7buser_name\x7d\x7d, welcome!` yields a template record with
`variables = ["user_name"]` and `type = "general"`; the type is inferred from
case-insensitive plain-substring checks of the content against the fixed
priority list (response or answer), (question or query), greeting, farewell,
defaulting to `general`, first match wins — the priority is witnessed by
`greeting response` classifying as `response` and `a greeting` as
`greeting`. -/
theorem C6_template_example_amended :
    process_template_data ("greeting".toList)
        ("Hello \x7b\x7buser_name\x7d\x7d, welcome!".toList) =
      ⟨"greeting".toList, "Hello \x7b\x7buser_name\x7d\x7d, welcome!".toList,
        "general".toList, ["user_name".toList]⟩ ∧
    detect_template_type ("greeting response".toList) = "response".toList ∧
    detect_template_type ("a greeting".toList) = "greeting".toList := by
  decide

/-- C7 counterexample: a heading line does not always yield a section key.
In `# a\n# b\nx` the heading `a` is immediately followed by another heading,
and the parsed dictionary contains no key `a` at all, while `b` is parsed
normally. -/
theorem C7_counterexample :
    dictFind (profileSections ("# a\n# b\nx".toList)) ("a".toList) = none ∧
    dictFind (profileSections ("# a\n# b\nx".toList)) ("b".toList) =
      some ("x".toList) := by
  decide

/-- C7 amended: the profile parser agrees with the spec-side description
`specSections` on every document — each heading with non-empty heading text
that is followed by at least one non-empty line before the next heading
yields the section key (heading text lowercased, spaces replaced by
underscores) whose value is those non-empty lines joined with newlines and
trimmed, a later section overwriting an earlier one with the same key,
headings with empty text or no non-empty content yielding no key, and lines
before the first heading discarded — and the `work.md` example produces
exactly the record with id `work`, name `Work Profile` and description
`For office tasks`, whatever the YAML collaborator does. -/
theorem C7_section_parsing_amended :
    (∀ content : Str, profileSections content = specSections content) ∧
    (∀ yload : Str → Option Str,
      process_profile_data yload ("work".toList)
          ("# name\nWork Profile\n# description\nFor office tasks".toList) =
        ⟨[("name".toList, "Work Profile".toList),
          ("description".toList, "For office tasks".toList),
          ("id".toList, "work".toList)], none⟩) := by
  refine ⟨profileSections_eq_spec, fun yload => ?_⟩
  rfl

/-- C8 counterexample: metadata handling is not shared by both parsers.  On a
document whose `metadata` section the YAML collaborator parses successfully,
the profile parser records the parsed value, but the character parser
produces only the raw section dictionary — `_parse_markdown_character`
contains no metadata step at all. -/
theorem C8_counterexample :
    parse_markdown_character ("# metadata\n---\nkey: value\n---".toList) =
      [("metadata".toList, "---\nkey: value\n---".toList)] ∧
    (parse_markdown_profile (fun s => some s)
        ("# metadata\n---\nkey: value\n---".toList)).metadata_parsed =
      some ("key: value".toList) := by
  decide

/-- C8 amended: only the profile parser handles metadata.  The character
parser computes exactly the plain section dictionary (the one the profile
parser computes before its metadata step, raw metadata text included), and in
the profile parser a YAML parse failure is non-fatal: the section dictionary
is unchanged — the raw text value of the `metadata` key is kept — and the
`metadata_parsed` field is simply omitted. -/
theorem C8_metadata_profile_only :
    (∀ content : Str, parse_markdown_character content = profileSections content) ∧
    (∀ content : Str,
      parse_markdown_profile (fun _ => none) content =
        ⟨profileSections content, none⟩) := by
  constructor
  · intro content
    exact characterGo_eq_profileGo (prepLines content) [] [] []
  · intro content
    simp only [parse_markdown_profile]
    cases dictFind (profileSections content) ("metadata".toList) <;> rfl

/-- C9: count consistency.  In every per-category result and in the aggregate
result of `sync_vault_to_db`, `processed = updated + skipped`; a file whose
per-file body raises is recorded only as an error and counted in none of
processed, updated or skipped; and a file whose processing returns failure is
counted as skipped (and processed). -/
theorem C9_count_consistency :
    (∀ (ef : Bool) (fs : List FileStep),
      (catCounts ef fs).processed =
        (catCounts ef fs).updated + (catCounts ef fs).skipped) ∧
    (∀ (flag : Bool) (cats : List CatOutcome) (o : Bool),
      ((sync_vault_to_db flag cats o).1.1).processed =
        ((sync_vault_to_db flag cats o).1.1).updated +
          ((sync_vault_to_db flag cats o).1.1).skipped) ∧
    (∀ (ef : Bool) (fs : List FileStep),
      catCounts ef (FileStep.raised :: fs) =
        { catCounts ef fs with errors := (catCounts ef fs).errors + 1 }) ∧
    (∀ (ef : Bool) (fs : List FileStep),
      catCounts ef (FileStep.ran true false :: fs) =
        { catCounts ef fs with
            processed := (catCounts ef fs).processed + 1
            skipped := (catCounts ef fs).skipped + 1 }) := by
  refine ⟨catCounts_inv, ?_, ?_, ?_⟩
  · intro flag cats o
    cases flag
    · simpa [sync_vault_to_db] using sync_vault_counts_inv cats
    · simp [sync_vault_to_db]
  · intro ef fs
    cases ef <;>
      · simp only [catCounts, List.foldl_cons]
        rw [foldl_syncFileStep_add fs]
        simp [syncFileStep, countsAdd, Counts.mk.injEq]
        omega
  · intro ef fs
    cases ef <;>
      · simp only [catCounts, List.foldl_cons]
        rw [foldl_syncFileStep_add fs]
        simp [syncFileStep, countsAdd, Counts.mk.injEq]
        omega

/-- C10: empty sections are omitted, not mapped to an empty string.  Every
key of the parsed dictionary — for both the profile and the character parser
— originates in a section with non-empty heading text and at least one
non-empty line; concretely, a heading immediately followed by another heading
(`# a\n# b\nx`) or by the end of the document (`# a`) contributes no key at
all. -/
theorem C10_empty_section_no_key :
    (∀ (content : Str) (k : Str), (∃ v, (k, v) ∈ profileSections content) →
      ∃ sec ∈ splitSecs (prepLines content),
        sec.1 = k ∧ sec.1 ≠ [] ∧ sec.2.filter (fun x => ! x.isEmpty) ≠ []) ∧
    (∀ (content : Str) (k : Str), (∃ v, (k, v) ∈ parse_markdown_character content) →
      ∃ sec ∈ splitSecs (prepLines content),
        sec.1 = k ∧ sec.1 ≠ [] ∧ sec.2.filter (fun x => ! x.isEmpty) ≠ []) ∧
    dictFind (profileSections ("# a\n# b\nx".toList)) ("a".toList) = none ∧
    profileSections ("# a".toList) = [] ∧
    dictFind (parse_markdown_character ("# a\n# b\nx".toList)) ("a".toList) = none ∧
    parse_markdown_character ("# a".toList) = [] := by
  have hchar : ∀ content : Str,
      parse_markdown_character content = profileSections content :=
    fun content => characterGo_eq_profileGo (prepLines content) [] [] []
  refine ⟨?_, ?_, by decide, by decide, by decide, by decide⟩
  · intro content k hv
    obtain ⟨v, hv⟩ := hv
    rw [profileSections_eq_spec] at hv
    rcases specFold_keys _ [] k v hv with ⟨v0, h0⟩ | hsec
    · simp at h0
    · exact hsec
  · intro content k hv
    obtain ⟨v, hv⟩ := hv
    rw [hchar content, profileSections_eq_spec] at hv
    rcases specFold_keys _ [] k v hv with ⟨v0, h0⟩ | hsec
    · simp at h0
    · exact hsec

/-- Witness for C10 at a concrete document with a non-empty section. -/
theorem C10_witness :
    (∃ v, (("name".toList, v) ∈ profileSections ("# name\nWork Profile".toList))) ∧
    (∃ sec ∈ splitSecs (prepLines ("# name\nWork Profile".toList)),
      sec.1 = "name".toList ∧ sec.1 ≠ [] ∧
        sec.2.filter (fun x => ! x.isEmpty) ≠ []) :=
  ⟨⟨"Work Profile".toList, by decide⟩,
    C10_empty_section_no_key.1 ("# name\nWork Profile".toList) ("name".toList)
      ⟨"Work Profile".toList, by decide⟩⟩

end SyncService
